import Mathlib

/-
Verification of the linalg library (src/linalg/vector.py, src/linalg/matrix.py,
src/linalg/utils.py) against its natural-language specification.

Scalars are modelled as rationals: every arithmetic operation the reduction
engine performs on the concrete inputs appearing below is exact in binary
floating point, so Python float results and rational results coincide there.
Vectors are lists of rationals; a Matrix mirrors the Python class: the stored
row tuple `_m` together with the stored `_h` and `_w` fields.  Fallible
operations return `Except Err`.
-/

namespace Linalg

attribute [local semireducible] Rat.add Rat.sub Rat.mul Rat.inv

/-- Error taxonomy of the spec (section 7).  The source raises ValueError for
dimension mismatches, NotImplementedError / NotImplemented for unsupported
operations, ZeroDivisionError for division by zero and IndexError for
out-of-range access; the spec names them DimensionMismatch,
UnsupportedOperation, DivisionByZero and IndexOutOfRange. -/
inductive Err where
  | dimensionMismatch
  | unsupported
  | divisionByZero
  | indexOutOfRange
deriving DecidableEq, Repr

instance {ε α : Type} [DecidableEq ε] [DecidableEq α] : DecidableEq (Except ε α) := fun x y =>
  match x, y with
  | .ok a, .ok b =>
      if h : a = b then .isTrue (by rw [h]) else .isFalse (fun hh => h (Except.ok.inj hh))
  | .error e, .error f =>
      if h : e = f then .isTrue (by rw [h]) else .isFalse (fun hh => h (Except.error.inj hh))
  | .ok _, .error _ => .isFalse (fun hh => Except.noConfusion hh)
  | .error _, .ok _ => .isFalse (fun hh => Except.noConfusion hh)

/-- Vector.__add__ (vector.py line 36): Vector(a + b for a, b in zip(self, other)).
Python zip truncates to the shorter operand; there is no length check. -/
def vadd (a b : List ℚ) : List ℚ := List.zipWith (· + ·) a b

/-- Vector.__sub__ (vector.py line 42): Vector(a - b for a, b in zip(self, other)). -/
def vsub (a b : List ℚ) : List ℚ := List.zipWith (· - ·) a b

/-- Vector.__mul__ with a Number (vector.py line 48): Vector(other * x for x in self). -/
def vsmul (c : ℚ) (v : List ℚ) : List ℚ := v.map (fun x => c * x)

/-- utils.leading_entry: index of the first non-zero element, len(v) if none. -/
def leading_entry (v : List ℚ) : ℕ := v.findIdx (fun x => x != 0)

/-- utils.inner_product: sum(x * y for x, y in zip(a, b)); zip truncates. -/
def inner_product (a b : List ℚ) : ℚ := (List.zipWith (· * ·) a b).sum

/-- utils.kronecker_delta. -/
def kronecker_delta (i j : ℕ) : ℚ := if i = j then 1 else 0

/-- The Matrix class: stored row tuple `_m` and the stored height and width. -/
structure Matrix where
  m : List (List ℚ)
  h : ℕ
  w : ℕ
deriving DecidableEq, Repr

/-- Matrix.__init__ on a list of rows: _h = len(_m); _w = len(_m[0]) if _h else 0;
if 0 in (height, width) then _m = ((),) and _h = _w = 0.  The same-length check
of the constructor is modelled separately in mkMatrix; every internal call site
passes rows of equal length. -/
def ofRows (args : List (List ℚ)) : Matrix :=
  let h := args.length
  let w := if h = 0 then 0 else (args.headD []).length
  if h = 0 ∨ w = 0 then ⟨[[]], 0, 0⟩ else ⟨args, h, w⟩

/-- Constructor length check: len(set(len(row) for row in args)) > 1 raises ValueError. -/
def sameLengths (args : List (List ℚ)) : Bool :=
  match args with
  | [] => true
  | r :: rs => rs.all (fun s => s.length == r.length)

/-- Matrix.__init__ including the ValueError path. -/
def mkMatrix (args : List (List ℚ)) : Except Err Matrix :=
  if sameLengths args then .ok (ofRows args) else .error .dimensionMismatch

/-- A Matrix value reachable from the constructor: rows of uniform length `w`
and the normalisation of __init__ already applied. -/
def Matrix.WF (A : Matrix) : Prop :=
  (∀ r ∈ A.m, r.length = A.w) ∧ ofRows A.m = A

instance (A : Matrix) : Decidable A.WF := by
  unfold Matrix.WF
  exact instDecidableAnd

/-- Number of columns truncated the way Python zip(*rows) truncates. -/
def minLen : List (List ℚ) → ℕ
  | [] => 0
  | r :: rs => rs.foldl (fun acc s => min acc s.length) r.length

/-- zip(*self._m): the list of columns (matrix.py columns/column, used by _mul). -/
def zipCols (rows : List (List ℚ)) : List (List ℚ) :=
  (List.range (minLen rows)).map (fun j => rows.map (fun r => r.getD j 0))

/-- Matrix.column(j) (matrix.py line 76), encoded totally for in-range j. -/
def Matrix.col (A : Matrix) (j : ℕ) : List ℚ := (zipCols A.m).getD j []

/-- Matrix._scale (matrix.py line 174). -/
def Matrix.scale (A : Matrix) (c : ℚ) : Matrix :=
  ofRows (A.m.map (fun row => vsmul c row))

/-- Matrix._mul (matrix.py line 181): for each row of self, the dot product
against each column of other.  No dimension check is performed. -/
def matMul (A B : Matrix) : Matrix :=
  ofRows (A.m.map (fun row => (zipCols B.m).map (fun col => inner_product row col)))

/-- Matrix._vecmul (matrix.py line 191): Vector(dot_product(row, other) for row in rows). -/
def vecMul (A : Matrix) (v : List ℚ) : List ℚ :=
  A.m.map (fun row => inner_product row v)

/-- The runtime type of the right operand of Matrix.__mul__. -/
inductive MulArg where
  | scalar (c : ℚ)
  | vec (v : List ℚ)
  | mat (B : Matrix)

/-- The runtime type of the result of Matrix.__mul__. -/
inductive MulResult where
  | vec (v : List ℚ)
  | mat (A : Matrix)
deriving DecidableEq

/-- Matrix.__mul__ (matrix.py line 195): dispatch on the type of other. -/
def Matrix.mul (A : Matrix) : MulArg → MulResult
  | .scalar c => .mat (A.scale c)
  | .mat B => .mat (matMul A B)
  | .vec v => .vec (vecMul A v)

/-- utils.identity: Matrix(*([kronecker_delta(i, j) for i in range(n)] for j in range(n))). -/
def basisRow (n j : ℕ) : List ℚ :=
  (List.range n).map (fun i => kronecker_delta i j)

/-- utils.identity. -/
def identity (n : ℕ) : Matrix :=
  ofRows ((List.range n).map (fun j => basisRow n j))

/-- Matrix.__pow__ (matrix.py line 227).  The guard is
`not (self.is_square or isinstance(idx, int))`; for an integer exponent the
isinstance test is true, so the guard never fires and squareness is never
enforced.  Negative exponents return NotImplemented, which Python turns into a
TypeError at the call site. -/
def Matrix.pow (A : Matrix) (idx : ℤ) : Except Err Matrix :=
  if ¬(A.w = A.h ∨ True) then .error .unsupported
  else if 0 ≤ idx then
    .ok ((List.range idx.toNat).foldl (fun acc _ => matMul acc A) (identity A.w))
  else .error .unsupported

/-- One elimination: lower - pivot * (lower[lead] / pivot[lead]) (utils.py line 142). -/
def elimRow (pivot : List ℚ) (lead : ℕ) (r : List ℚ) : List ℚ :=
  vsub r (vsmul (r.getD lead 0 / pivot.getD lead 0) pivot)

/-- The inner loop `for i in range(idx + 1, M.height)` of utils.echelon_form:
each lower row whose own leading index equals the pivot row's is eliminated.
The counter i names the position of the head of the remaining list. -/
def updBelow (pivot : List ℚ) (lead idx hgt : ℕ) : ℕ → List (List ℚ) → List (List ℚ)
  | _, [] => []
  | i, r :: rs =>
      (if idx < i ∧ i < hgt ∧ leading_entry r = lead then elimRow pivot lead r else r) ::
        updBelow pivot lead idx hgt (i + 1) rs

/-- One iteration of the outer `for idx, row in enumerate(rows)` loop. -/
def passStep (w hgt : ℕ) (rs : List (List ℚ)) (idx : ℕ) : List (List ℚ) :=
  let row := rs.getD idx []
  let lead := leading_entry row
  if lead = w then rs else updBelow row lead idx hgt 0 rs

/-- Python list.sort(key=...) is a stable sort; stable insertion by key. -/
def insertK {α : Type} (key : α → ℕ) (x : α) : List α → List α
  | [] => [x]
  | y :: ys => if key y < key x then y :: insertK key x ys else x :: y :: ys

/-- Stable sort by key, modelling rows.sort(key=leading_entry). -/
def sortK {α : Type} (key : α → ℕ) : List α → List α
  | [] => []
  | x :: xs => insertK key x (sortK key xs)

/-- utils.echelon_form (utils.py line 126): one forward elimination pass over
the row list, then a stable sort by leading-entry index. -/
def echelon_form (M : Matrix) : Matrix :=
  let rows := (List.range M.m.length).foldl (passStep M.w M.h) M.m
  ofRows (sortK leading_entry rows)

/-- Modelled from the spec: matrix.py line 60 calls self.row_echelon_form(),
but no method of that name exists anywhere under src; only the free function
utils.echelon_form does.  Section 4.3 of the spec describes the reduction this
method must perform, and its description coincides step for step with
utils.echelon_form, so the missing method is modelled as that function. -/
def Matrix.row_echelon_form (M : Matrix) : Matrix := echelon_form M

/-- The determinant loop: det = 1; for idx, row in enumerate(rows): det *= row[idx].
Indexing past the end of a row raises IndexError. -/
def detLoop : List (List ℚ) → ℕ → ℚ → Except Err ℚ
  | [], _, det => .ok det
  | row :: rest, idx, det =>
      match row[idx]? with
      | some x => detLoop rest (idx + 1) (det * x)
      | none => .error .indexOutOfRange

/-- Matrix.determinant (matrix.py line 55). -/
def Matrix.determinant (A : Matrix) : Except Err ℚ :=
  if A.w = A.h then detLoop A.row_echelon_form.m 0 1 else .error .unsupported

/-- The diagonal entries row[idx], row taken from position idx onward. -/
def diagFrom : ℕ → List (List ℚ) → List ℚ
  | _, [] => []
  | idx, r :: rest => r.getD idx 0 :: diagFrom (idx + 1) rest

/-- Product of the diagonal entries of a row list. -/
def diagProd (rs : List (List ℚ)) : ℚ := (diagFrom 0 rs).prod

/-- The echelon-form postcondition of the spec (section 3): scanning down the
rows, leading indices strictly increase, and zero rows (leading index = width)
only ever follow zero rows. -/
def IsEchelon (A : Matrix) : Prop :=
  List.Chain' (fun a b => a < b ∨ (a = A.w ∧ b = A.w)) (A.m.map leading_entry)

/-- A Chain-prime decider that evaluates by kernel reduction. -/
def decChain (R : ℕ → ℕ → Prop) [DecidableRel R] : (l : List ℕ) → Decidable (List.Chain' R l)
  | [] => .isTrue List.chain'_nil
  | [a] => .isTrue (List.chain'_singleton a)
  | a :: b :: rest =>
      if h : R a b then
        match decChain R (b :: rest) with
        | .isTrue ht => .isTrue (List.chain'_cons.mpr ⟨h, ht⟩)
        | .isFalse hf => .isFalse (fun hc => hf (List.chain'_cons.mp hc).2)
      else .isFalse (fun hc => h (List.chain'_cons.mp hc).1)

instance (A : Matrix) : Decidable (IsEchelon A) :=
  decChain (fun a b => a < b ∨ (a = A.w ∧ b = A.w)) (A.m.map leading_entry)

/-- Vector.magnitude (vector.py line 13): sqrt(sum(x ** 2 for x in self._v)). -/
noncomputable def magnitude (v : List ℚ) : ℝ :=
  Real.sqrt (((v.map (fun x => x ^ 2)).sum : ℚ) : ℝ)

/-- The generator (x / m for x in self._v) evaluated left to right: dividing by
a zero float raises ZeroDivisionError at the first element; an empty vector
performs no division at all. -/
noncomputable def divEach (m : ℝ) : List ℚ → Except Err (List ℝ)
  | [] => .ok []
  | x :: xs =>
      if m = 0 then .error .divisionByZero
      else
        match divEach m xs with
        | .ok ys => .ok (((x : ℝ) / m) :: ys)
        | .error e => .error e

/-- Vector.direction (vector.py line 18): m = self.magnitude; Vector(x / m for x in self._v). -/
noncomputable def direction (v : List ℚ) : Except Err (List ℝ) :=
  divEach (magnitude v) v

/-! Helper lemmas about lists. -/

lemma getD_recon {α : Type} (l : List α) (d : α) :
    (List.range l.length).map (fun j => l.getD j d) = l := by
  induction l with
  | nil => rfl
  | cons x xs ih =>
      rw [List.length_cons, List.range_succ_eq_map, List.map_cons, List.map_map]
      simp only [List.getD_cons_zero, Function.comp_def, List.getD_cons_succ]
      rw [ih]

lemma getD_map_range {α : Type} (f : ℕ → α) {n j : ℕ} (d : α) (h : j < n) :
    ((List.range n).map f).getD j d = f j := by
  have h2 : j < ((List.range n).map f).length := by simpa using h
  rw [List.getD_eq_getElem _ d h2, List.getElem_map, List.getElem_range]

lemma getD_map_list {α β : Type} (f : α → β) (l : List α) {j : ℕ} (d : α) (e : β)
    (h : j < l.length) : (l.map f).getD j e = f (l.getD j d) := by
  have h2 : j < (l.map f).length := by simpa using h
  rw [List.getD_eq_getElem _ e h2, List.getD_eq_getElem _ d h, List.getElem_map]

lemma inner_zero_left (w v : List ℚ) (hw : ∀ x ∈ w, x = 0) : inner_product w v = 0 := by
  induction w generalizing v with
  | nil => rfl
  | cons x xs ih =>
      cases v with
      | nil => rfl
      | cons y ys =>
          have hx : x = 0 := hw x (List.mem_cons_self x xs)
          have hxs : ∀ z ∈ xs, z = 0 := fun z hz => hw z (List.mem_cons_of_mem x hz)
          simp [inner_product] at ih ⊢
          rw [hx, ih ys hxs, zero_mul, add_zero]

lemma basisRow_succ_zero (n : ℕ) :
    basisRow (n + 1) 0 = 1 :: (List.range n).map (fun _ => (0 : ℚ)) := by
  rw [basisRow, List.range_succ_eq_map, List.map_cons, List.map_map]
  refine congrArg₂ List.cons rfl ?_
  apply List.map_congr_left
  intro a _
  have : ¬(a.succ = 0) := Nat.succ_ne_zero a
  simp [kronecker_delta, Function.comp_def, this]

lemma basisRow_succ_succ (n j : ℕ) :
    basisRow (n + 1) (j + 1) = 0 :: basisRow n j := by
  rw [basisRow, List.range_succ_eq_map, List.map_cons, List.map_map, basisRow]
  refine congrArg₂ List.cons ?_ ?_
  · simp [kronecker_delta]
  · apply List.map_congr_left
    intro a _
    by_cases hc : a = j
    · subst hc
      simp [kronecker_delta, Function.comp_def]
    · have : ¬(a.succ = j + 1) := fun hh => hc (Nat.succ.inj hh)
      simp [kronecker_delta, Function.comp_def, this, hc]

lemma basisRow_length (n j : ℕ) : (basisRow n j).length = n := by
  simp [basisRow]

lemma inner_basis (v : List ℚ) (j : ℕ) (h : j < v.length) :
    inner_product (basisRow v.length j) v = v.getD j 0 := by
  induction v generalizing j with
  | nil => exact absurd h (Nat.not_lt_zero j)
  | cons x xs ih =>
      cases j with
      | zero =>
          rw [List.length_cons, basisRow_succ_zero, List.getD_cons_zero]
          simp only [inner_product, List.zipWith_cons_cons, List.sum_cons, one_mul]
          have : inner_product ((List.range xs.length).map (fun _ => (0 : ℚ))) xs = 0 := by
            apply inner_zero_left
            intro z hz
            rcases List.mem_map.mp hz with ⟨a, _, rfl⟩
            rfl
          rw [inner_product] at this
          rw [this, add_zero]
      | succ k =>
          rw [List.length_cons, basisRow_succ_succ, List.getD_cons_succ]
          simp only [inner_product, List.zipWith_cons_cons, List.sum_cons, zero_mul, zero_add]
          exact ih k (Nat.lt_of_succ_lt_succ h)

lemma insertK_perm {α : Type} (key : α → ℕ) (x : α) (l : List α) :
    (insertK key x l).Perm (x :: l) := by
  induction l with
  | nil => exact List.Perm.refl _
  | cons y ys ih =>
      rw [insertK]
      by_cases hc : key y < key x
      · rw [if_pos hc]
        exact (ih.cons y).trans (List.Perm.swap x y ys)
      · rw [if_neg hc]

lemma sortK_perm {α : Type} (key : α → ℕ) (l : List α) : (sortK key l).Perm l := by
  induction l with
  | nil => exact List.Perm.refl _
  | cons x xs ih =>
      rw [sortK]
      exact (insertK_perm key x (sortK key xs)).trans (ih.cons x)

lemma insertK_sorted_head {α : Type} (key : α → ℕ) (x : α) (l : List α)
    (hle : ∀ y ∈ l, key x ≤ key y) : insertK key x l = x :: l := by
  cases l with
  | nil => rfl
  | cons y ys =>
      rw [insertK, if_neg]
      exact Nat.not_lt.mpr (hle y (List.mem_cons_self y ys))

lemma sortK_sorted_id {α : Type} (key : α → ℕ) (l : List α)
    (hs : l.Pairwise (fun a b => key a ≤ key b)) : sortK key l = l := by
  induction l with
  | nil => rfl
  | cons x xs ih =>
      rw [sortK, ih (List.Pairwise.of_cons hs)]
      exact insertK_sorted_head key x xs (fun y hy => (List.pairwise_cons.mp hs).1 y hy)

lemma updBelow_length (pivot : List ℚ) (lead idx hgt : ℕ) :
    ∀ (i : ℕ) (rs : List (List ℚ)), (updBelow pivot lead idx hgt i rs).length = rs.length := by
  intro i rs
  induction rs generalizing i with
  | nil => rfl
  | cons r rest ih =>
      rw [updBelow, List.length_cons, List.length_cons, ih]

lemma updBelow_id (pivot : List ℚ) (lead idx hgt : ℕ) :
    ∀ (i : ℕ) (rs : List (List ℚ)),
      (∀ k (hk : k < rs.length), ¬(idx < i + k ∧ i + k < hgt ∧ leading_entry rs[k] = lead)) →
      updBelow pivot lead idx hgt i rs = rs := by
  intro i rs
  induction rs generalizing i with
  | nil => intro _; rfl
  | cons r rest ih =>
      intro hcond
      rw [updBelow, if_neg, ih (i + 1)]
      · intro k hk
        have := hcond (k + 1) (by simpa using Nat.succ_lt_succ hk)
        simpa [Nat.add_assoc, Nat.add_comm 1 k, Nat.add_left_comm] using this
      · have := hcond 0 (Nat.succ_pos rest.length)
        simpa using this

lemma updBelow_rows (pivot : List ℚ) (lead idx hgt : ℕ) (w : ℕ) (hp : pivot.length = w) :
    ∀ (i : ℕ) (rs : List (List ℚ)), (∀ r ∈ rs, r.length = w) →
      ∀ r ∈ updBelow pivot lead idx hgt i rs, r.length = w := by
  intro i rs
  induction rs generalizing i with
  | nil => intro _ r hr; cases hr
  | cons s rest ih =>
      intro hrs r hr
      rw [updBelow] at hr
      rcases List.mem_cons.mp hr with hhead | htail
      · subst hhead
        by_cases hc : idx < i ∧ i < hgt ∧ leading_entry s = lead
        · rw [if_pos hc, elimRow, vsub, vsmul]
          rw [List.length_zipWith, List.length_map, hp,
            hrs s (List.mem_cons_self s rest), Nat.min_self]
        · rw [if_neg hc]
          exact hrs s (List.mem_cons_self s rest)
      · exact ih (i + 1) (fun r hr => hrs r (List.mem_cons_of_mem s hr)) r htail

lemma passStep_length (w hgt : ℕ) (rs : List (List ℚ)) (idx : ℕ) :
    (passStep w hgt rs idx).length = rs.length := by
  rw [passStep]
  by_cases hc : leading_entry (rs.getD idx []) = w
  · rw [if_pos hc]
  · rw [if_neg hc, updBelow_length]

lemma passStep_rows (w hgt : ℕ) (rs : List (List ℚ)) (idx : ℕ) (hidx : idx < rs.length)
    (hrs : ∀ r ∈ rs, r.length = w) : ∀ r ∈ passStep w hgt rs idx, r.length = w := by
  rw [passStep]
  by_cases hc : leading_entry (rs.getD idx []) = w
  · rw [if_pos hc]
    exact hrs
  · rw [if_neg hc]
    apply updBelow_rows
    · rw [List.getD_eq_getElem _ [] hidx]
      exact hrs _ (List.getElem_mem hidx)
    · exact hrs

lemma foldl_pass_length (w hgt : ℕ) :
    ∀ (idxs : List ℕ) (rs : List (List ℚ)),
      (idxs.foldl (passStep w hgt) rs).length = rs.length := by
  intro idxs
  induction idxs with
  | nil => intro rs; rfl
  | cons i rest ih =>
      intro rs
      rw [List.foldl_cons, ih, passStep_length]

lemma foldl_pass_rows (w hgt n : ℕ) :
    ∀ (idxs : List ℕ) (rs : List (List ℚ)), (∀ i ∈ idxs, i < n) → rs.length = n →
      (∀ r ∈ rs, r.length = w) →
      ∀ r ∈ idxs.foldl (passStep w hgt) rs, r.length = w := by
  intro idxs
  induction idxs with
  | nil => intro rs _ _ hrs; exact hrs
  | cons i rest ih =>
      intro rs hidx hlen hrs
      rw [List.foldl_cons]
      apply ih
      · intro a ha
        exact hidx a (List.mem_cons_of_mem i ha)
      · rw [passStep_length, hlen]
      · apply passStep_rows
        · rw [hlen]
          exact hidx i (List.mem_cons_self i rest)
        · exact hrs

lemma foldl_fixed {α β : Type} (f : α → β → α) (a : α) :
    ∀ (l : List β), (∀ b ∈ l, f a b = a) → l.foldl f a = a := by
  intro l
  induction l with
  | nil => intro _; rfl
  | cons b rest ih =>
      intro hb
      rw [List.foldl_cons, hb b (List.mem_cons_self b rest)]
      exact ih (fun c hc => hb c (List.mem_cons_of_mem b hc))

lemma leading_basis (n j : ℕ) (h : j < n) : leading_entry (basisRow n j) = j := by
  induction n generalizing j with
  | zero => exact absurd h (Nat.not_lt_zero j)
  | succ k ih =>
      cases j with
      | zero =>
          rw [basisRow_succ_zero, leading_entry, List.findIdx_cons]
          have h1 : ((1 : ℚ) != 0) = true := by decide
          rw [h1]
          rfl
      | succ i =>
          rw [basisRow_succ_succ, leading_entry, List.findIdx_cons]
          have : ((0 : ℚ) != 0) = false := by decide
          rw [this]
          simp only [cond_false]
          rw [← leading_entry, ih i (Nat.lt_of_succ_lt_succ h)]

/-! Structural lemmas about ofRows and WF. -/

lemma ofRows_of_pos (args : List (List ℚ)) (w : ℕ) (hlen : 0 < args.length)
    (hw : 0 < w) (hrows : ∀ r ∈ args, r.length = w) :
    ofRows args = ⟨args, args.length, w⟩ := by
  have hhead : (args.headD []).length = w := by
    cases args with
    | nil => exact absurd hlen (by simp)
    | cons a rest => exact hrows a (List.mem_cons_self a rest)
  rw [ofRows]
  simp only [hhead]
  rw [if_neg (Nat.pos_iff_ne_zero.mp hlen), if_neg]
  intro hc
  rcases hc with hc | hc
  · exact Nat.pos_iff_ne_zero.mp hlen hc
  · exact Nat.pos_iff_ne_zero.mp hw hc

lemma wf_ofRows_uniform (args : List (List ℚ)) (w : ℕ)
    (hrows : ∀ r ∈ args, r.length = w) : (ofRows args).WF := by
  by_cases hlen : args.length = 0
  · have : args = [] := List.length_eq_zero.mp hlen
    subst this
    decide
  · by_cases hw : w = 0
    · subst hw
      have hhead : (args.headD []).length = 0 := by
        cases args with
        | nil => rfl
        | cons a rest => exact hrows a (List.mem_cons_self a rest)
      rw [ofRows]
      simp only [hhead]
      rw [if_neg hlen, if_pos (Or.inr rfl)]
      decide
    · rw [ofRows_of_pos args w (Nat.pos_of_ne_zero hlen) (Nat.pos_of_ne_zero hw) hrows]
      constructor
      · exact hrows
      · exact ofRows_of_pos args w (Nat.pos_of_ne_zero hlen) (Nat.pos_of_ne_zero hw) hrows

lemma WF_elim (A : Matrix) (hA : A.WF) :
    A = ⟨[[]], 0, 0⟩ ∨
      (0 < A.h ∧ 0 < A.w ∧ A.m.length = A.h ∧ A.m ≠ [] ∧ ∀ r ∈ A.m, r.length = A.w) := by
  rcases hA with ⟨hrows, hcon⟩
  by_cases hlen : A.m.length = 0
  · left
    have : A.m = [] := List.length_eq_zero.mp hlen
    rw [← hcon, this]
    rfl
  · by_cases hw : (A.m.headD []).length = 0
    · left
      rw [← hcon, ofRows]
      simp only [hw]
      rw [if_neg hlen, if_pos (Or.inr rfl)]
    · right
      have hmem : A.m.headD [] ∈ A.m := by
        cases hm : A.m with
        | nil => rw [hm] at hlen; exact absurd rfl hlen
        | cons a rest => exact List.mem_cons_self a rest
      have hware : (A.m.headD []).length = A.w := hrows _ hmem
      have hwpos : 0 < A.w := by
        rw [← hware]
        exact Nat.pos_of_ne_zero hw
      have heq : ofRows A.m = ⟨A.m, A.m.length, A.w⟩ :=
        ofRows_of_pos A.m A.w (Nat.pos_of_ne_zero hlen) hwpos hrows
      rw [heq] at hcon
      have hh : A.h = A.m.length := by rw [← hcon]
      refine ⟨?_, hwpos, hh.symm, ?_, hrows⟩
      · rw [hh]
        exact Nat.pos_of_ne_zero hlen
      · intro hc
        rw [hc] at hlen
        exact hlen rfl

lemma WF_empty : (Matrix.mk [[]] 0 0).WF := by decide

lemma identity_m (n : ℕ) (hn : 0 < n) :
    (identity n).m = (List.range n).map (fun j => basisRow n j) ∧
      (identity n).h = n ∧ (identity n).w = n := by
  have hrows : ∀ r ∈ (List.range n).map (fun j => basisRow n j), r.length = n := by
    intro r hr
    rcases List.mem_map.mp hr with ⟨j, _, rfl⟩
    exact basisRow_length n j
  rw [identity, ofRows_of_pos _ n (by simpa using hn) hn hrows]
  exact ⟨rfl, by simp, rfl⟩

lemma identity_WF (n : ℕ) : (identity n).WF := by
  apply wf_ofRows_uniform _ n
  intro r hr
  rcases List.mem_map.mp hr with ⟨j, _, rfl⟩
  exact basisRow_length n j

/-! The transitive pairwise relation underlying the echelon postcondition. -/

lemma echelonRel_trans (w : ℕ) :
    ∀ {a b c : ℕ}, (a < b ∨ (a = w ∧ b = w)) → (b < c ∨ (b = w ∧ c = w)) →
      (a < c ∨ (a = w ∧ c = w)) := by
  intro a b c hab hbc
  rcases hab with hab | ⟨ha, hb⟩
  · rcases hbc with hbc | ⟨hb, hc⟩
    · exact Or.inl (hab.trans hbc)
    · exact Or.inl (by rw [hc, ← hb]; exact hab)
  · rcases hbc with hbc | ⟨_, hc⟩
    · exact Or.inl (by rw [ha, ← hb]; exact hbc)
    · exact Or.inr ⟨ha, hc⟩

lemma isEchelon_pairwise (A : Matrix) (hA : IsEchelon A) :
    (A.m.map leading_entry).Pairwise (fun a b => a < b ∨ (a = A.w ∧ b = A.w)) := by
  rw [IsEchelon] at hA
  haveI : IsTrans ℕ (fun a b => a < b ∨ (a = A.w ∧ b = A.w)) :=
    ⟨fun _ _ _ hab hbc => echelonRel_trans A.w hab hbc⟩
  exact List.chain'_iff_pairwise.mp hA

lemma passStep_fixed (w hgt : ℕ) (rs : List (List ℚ)) (idx : ℕ) (hidx : idx < rs.length)
    (hp : (rs.map leading_entry).Pairwise (fun a b => a < b ∨ (a = w ∧ b = w))) :
    passStep w hgt rs idx = rs := by
  rw [passStep]
  by_cases hlw : leading_entry (rs.getD idx []) = w
  · rw [if_pos hlw]
  · rw [if_neg hlw]
    apply updBelow_id
    intro k hk
    rintro ⟨hik, _, hlead⟩
    rw [Nat.zero_add] at hik
    have hi2 : idx < (rs.map leading_entry).length := by
      rw [List.length_map]
      exact hidx
    have hk2 : k < (rs.map leading_entry).length := by
      rw [List.length_map]
      exact hk
    have hpg := List.pairwise_iff_getElem.mp hp idx k hi2 hk2 hik
    rw [List.getElem_map, List.getElem_map] at hpg
    rw [List.getD_eq_getElem _ [] hidx] at hlw hlead
    rcases hpg with hlt | ⟨heqw, _⟩
    · rw [hlead] at hlt
      exact Nat.lt_irrefl _ hlt
    · exact hlw heqw

lemma echelon_fixed (N : Matrix) (hWF : N.WF) (hE : IsEchelon N) : echelon_form N = N := by
  rcases WF_elim N hWF with hempty | ⟨_, _, hlen, hne, _⟩
  · rw [hempty]
    decide
  · have hp := isEchelon_pairwise N hE
    rw [echelon_form]
    have hpass : (List.range N.m.length).foldl (passStep N.w N.h) N.m = N.m := by
      apply foldl_fixed
      intro idx hidx
      exact passStep_fixed N.w N.h N.m idx (List.mem_range.mp hidx) hp
    rw [hpass]
    have hsort : sortK leading_entry N.m = N.m := by
      apply sortK_sorted_id
      have hple : (N.m.map leading_entry).Pairwise (fun a b => a ≤ b) := by
        apply hp.imp
        intro a b hab
        rcases hab with hab | ⟨ha, hb⟩
        · exact Nat.le_of_lt hab
        · rw [ha, hb]
      exact (List.pairwise_map.mp hple)
    rw [hsort]
    exact hWF.2

lemma echelon_rows (A : Matrix) (hWF : A.WF) :
    ∀ r ∈ sortK leading_entry ((List.range A.m.length).foldl (passStep A.w A.h) A.m),
      r.length = A.w := by
  intro r hr
  have hperm := sortK_perm leading_entry ((List.range A.m.length).foldl (passStep A.w A.h) A.m)
  have hr2 := hperm.mem_iff.mp hr
  apply foldl_pass_rows A.w A.h A.m.length (List.range A.m.length) A.m _ rfl hWF.1 r hr2
  intro i hi
  exact List.mem_range.mp hi

lemma echelon_WF (A : Matrix) (hWF : A.WF) : (echelon_form A).WF := by
  rw [echelon_form]
  exact wf_ofRows_uniform _ A.w (echelon_rows A hWF)

lemma echelon_shape (A : Matrix) (hWF : A.WF) (hpos : 0 < A.h) :
    (echelon_form A).m.length = A.h ∧ (∀ r ∈ (echelon_form A).m, r.length = A.w) ∧
      (echelon_form A).h = A.h ∧ (echelon_form A).w = A.w := by
  rcases WF_elim A hWF with hempty | ⟨hh, hw, hlen, _, _⟩
  · rw [hempty] at hpos
    exact absurd hpos (by decide)
  · have hslen : (sortK leading_entry ((List.range A.m.length).foldl (passStep A.w A.h) A.m)).length
        = A.h := by
      rw [(sortK_perm _ _).length_eq, foldl_pass_length, hlen]
    have heq : echelon_form A =
        ⟨sortK leading_entry ((List.range A.m.length).foldl (passStep A.w A.h) A.m), A.h, A.w⟩ := by
      rw [echelon_form, ofRows_of_pos _ A.w _ hw (echelon_rows A hWF)]
      · rw [hslen]
      · rw [hslen]
        exact hh
    rw [heq]
    exact ⟨hslen, echelon_rows A hWF, rfl, rfl⟩

/-! The identity matrix is already in echelon form. -/

lemma identity_leads (n : ℕ) (hn : 0 < n) :
    (identity n).m.map leading_entry = List.range n := by
  rw [(identity_m n hn).1, List.map_map]
  have : List.map (leading_entry ∘ fun j => basisRow n j) (List.range n) =
      List.map (fun j => j) (List.range n) := by
    apply List.map_congr_left
    intro j hj
    exact leading_basis n j (List.mem_range.mp hj)
  rw [this, List.map_id']

lemma identity_isEchelon (n : ℕ) : IsEchelon (identity n) := by
  by_cases hn : n = 0
  · subst hn
    decide
  · rw [IsEchelon, identity_leads n (Nat.pos_of_ne_zero hn)]
    apply List.Pairwise.chain'
    apply (List.pairwise_lt_range n).imp
    intro a b hab
    exact Or.inl hab

/-! The determinant loop. -/

lemma detLoop_ok (rs : List (List ℚ)) :
    ∀ (idx : ℕ) (acc : ℚ), (∀ k (hk : k < rs.length), idx + k < rs[k].length) →
      detLoop rs idx acc = .ok (acc * (diagFrom idx rs).prod) := by
  induction rs with
  | nil =>
      intro idx acc _
      rw [detLoop, diagFrom, List.prod_nil, mul_one]
  | cons r rest ih =>
      intro idx acc hk
      have h0 : idx < r.length := by
        have := hk 0 (Nat.succ_pos rest.length)
        simpa using this
      rw [detLoop, List.getElem?_eq_getElem h0]
      show detLoop rest (idx + 1) (acc * r[idx]) = _
      rw [ih (idx + 1) (acc * r[idx]) ?_]
      · rw [diagFrom, List.prod_cons, List.getD_eq_getElem _ 0 h0, mul_assoc]
      · intro k hkk
        have := hk (k + 1) (by simpa using Nat.succ_lt_succ hkk)
        simpa [Nat.add_assoc, Nat.add_comm 1 k, Nat.add_left_comm] using this

lemma diagFrom_prod_one (rs : List (List ℚ)) :
    ∀ (idx : ℕ), (∀ k (hk : k < rs.length), rs[k].getD (idx + k) 0 = 1) →
      (diagFrom idx rs).prod = 1 := by
  induction rs with
  | nil => intro _ _; rfl
  | cons r rest ih =>
      intro idx hone
      rw [diagFrom, List.prod_cons]
      have h0 : r.getD idx 0 = 1 := by
        have := hone 0 (Nat.succ_pos rest.length)
        simpa using this
      rw [h0, one_mul]
      apply ih (idx + 1)
      intro k hkk
      have := hone (k + 1) (by simpa using Nat.succ_lt_succ hkk)
      simpa [Nat.add_assoc, Nat.add_comm 1 k, Nat.add_left_comm] using this

/-! Multiplication facts used for C8. -/

lemma minLen_uniform (rows : List (List ℚ)) (w : ℕ) (hne : rows ≠ [])
    (hrows : ∀ r ∈ rows, r.length = w) : minLen rows = w := by
  cases rows with
  | nil => exact absurd rfl hne
  | cons a rest =>
      rw [minLen]
      have ha : a.length = w := hrows a (List.mem_cons_self a rest)
      have haux : ∀ (l : List (List ℚ)), (∀ r ∈ l, r.length = w) →
          l.foldl (fun acc s => min acc s.length) w = w := by
        intro l
        induction l with
        | nil => intro _; rfl
        | cons b bs ihb =>
            intro hb
            rw [List.foldl_cons, hb b (List.mem_cons_self b bs), Nat.min_self]
            exact ihb (fun r hr => hb r (List.mem_cons_of_mem b hr))
      rw [ha]
      exact haux rest (fun r hr => hrows r (List.mem_cons_of_mem a hr))

lemma zipCols_uniform (rows : List (List ℚ)) (w : ℕ) (hne : rows ≠ [])
    (hrows : ∀ r ∈ rows, r.length = w) :
    zipCols rows = (List.range w).map (fun j => rows.map (fun r => r.getD j 0)) := by
  rw [zipCols, minLen_uniform rows w hne hrows]

lemma matMul_identity_left (A : Matrix) (hWF : A.WF) : matMul (identity A.h) A = A := by
  rcases WF_elim A hWF with hempty | ⟨hh, hw, hlen, hne, hrows⟩
  · rw [hempty]
    decide
  · have hId := identity_m A.h hh
    have hcols := zipCols_uniform A.m A.w hne hrows
    have hL : ((identity A.h).m.map
        (fun row => (zipCols A.m).map (fun col => inner_product row col))) = A.m := by
      apply List.ext_getElem
      · rw [List.length_map, hId.1, List.length_map, List.length_range, hlen]
      · intro j hj1 hj2
        have hjn : j < A.h := by
          rw [hlen] at hj2
          exact hj2
        rw [List.getElem_map]
        have hjlt : j < (identity A.h).m.length := by
          rw [hId.1, List.length_map, List.length_range]
          exact hjn
        have hbase : (identity A.h).m[j] = basisRow A.h j := by
          conv_lhs => rw [List.getElem_of_eq hId.1 hjlt]
          rw [List.getElem_map, List.getElem_range]
        rw [hbase]
        apply List.ext_getElem
        · rw [List.length_map, hcols, List.length_map, List.length_range]
          exact (hrows _ (List.getElem_mem hj2)).symm
        · intro c hc1 hc2
          have hcw : c < A.w := by
            rw [hrows _ (List.getElem_mem hj2)] at hc2
            exact hc2
          rw [List.getElem_map]
          have hclt : c < (zipCols A.m).length := by
            rw [hcols, List.length_map, List.length_range]
            exact hcw
          have hcol : (zipCols A.m)[c] = A.m.map (fun r => r.getD c 0) := by
            conv_lhs => rw [List.getElem_of_eq hcols hclt]
            rw [List.getElem_map, List.getElem_range]
          rw [hcol]
          have hlcol : (A.m.map (fun r => r.getD c 0)).length = A.h := by
            rw [List.length_map, hlen]
          have hib := inner_basis (A.m.map (fun r => r.getD c 0)) j (by
            rw [hlcol]; exact hjn)
          rw [hlcol] at hib
          rw [hib, getD_map_list _ _ [] 0 (by rw [hlen]; exact hjn)]
          rw [List.getD_eq_getElem _ [] hj2, List.getD_eq_getElem _ 0 hc2]
    rw [matMul, hL]
    exact hWF.2

lemma WF_h_zero (B : Matrix) (hWF : B.WF) (h0 : B.h = 0) : B = ⟨[[]], 0, 0⟩ := by
  rcases WF_elim B hWF with hempty | ⟨hh, _, _, _, _⟩
  · exact hempty
  · rw [h0] at hh
    exact absurd hh (by decide)

/-! The claims. -/

/-- C2: reducing Matrix((1,2,3),(4,5,6),(7,8,9)) to row-echelon form yields exactly
Matrix((1,2,3),(0,-3,-6),(0,0,0)), with leading indices 0, 1, width (= 3) in that
order.  The elimination divisions 4/1, 7/1 and (-6)/(-3) are exact both in floats
and in the rationals used here, so the Python float entries 0.0, -3.0, -6.0 equal
these rational values. -/
theorem C2_echelon_concrete :
    echelon_form (ofRows [[1,2,3],[4,5,6],[7,8,9]]) = ofRows [[1,2,3],[0,-3,-6],[0,0,0]] ∧
      (echelon_form (ofRows [[1,2,3],[4,5,6],[7,8,9]])).m.map leading_entry = [0, 1, 3] := by
  constructor
  · decide
  · decide

/-- C3: the claimed postcondition fails.  On Matrix((0,1,0),(1,0,0),(1,1,0)) the
single forward pass never aligns the third row with a pivot of leading index 1,
so echelon_form returns Matrix((1,0,0),(0,1,0),(0,1,0)), in which the second and
third rows share leading index 1 - not strictly increasing, not echelon form. -/
theorem C3_echelon_postcondition_violated :
    echelon_form (ofRows [[0,1,0],[1,0,0],[1,1,0]]) = ofRows [[1,0,0],[0,1,0],[0,1,0]] ∧
      ¬ IsEchelon (echelon_form (ofRows [[0,1,0],[1,0,0],[1,1,0]])) := by
  constructor
  · decide
  · decide

/-- C4 counterexample: echelon_form is not idempotent.  A second application to
the output for Matrix((0,1,0),(1,0,0,),(1,1,0)) eliminates the duplicated
leading index 1 and produces a different matrix. -/
theorem C4_counterexample :
    echelon_form (echelon_form (ofRows [[0,1,0],[1,0,0],[1,1,0]])) ≠
      echelon_form (ofRows [[0,1,0],[1,0,0],[1,1,0]]) := by decide

/-- C4 amended: whenever the first reduction already satisfies the echelon-form
postcondition, the second pass eliminates nothing and the stable sort leaves the
row order unchanged, so reduction is idempotent on such inputs. -/
theorem C4_amended_idempotent_on_echelon (M : Matrix) (hWF : M.WF)
    (hE : IsEchelon (echelon_form M)) :
    echelon_form (echelon_form M) = echelon_form M :=
  echelon_fixed (echelon_form M) (echelon_WF M hWF) hE

/-- C4 witness: the idempotence instance at Matrix((1,2,3),(4,5,6),(7,8,9)). -/
theorem C4_amended_witness :
    echelon_form (echelon_form (ofRows [[1,2,3],[4,5,6],[7,8,9]])) =
      echelon_form (ofRows [[1,2,3],[4,5,6],[7,8,9]]) :=
  C4_amended_idempotent_on_echelon (ofRows [[1,2,3],[4,5,6],[7,8,9]]) (by decide) (by decide)

/-- C5 counterexample: Vector addition and subtraction do not check lengths and
do not raise DimensionMismatch.  zip truncates to the shorter operand:
Vector(1,2,3) + Vector(4,5) = Vector(5,7) and Vector(1,2,3) - Vector(4,5) =
Vector(-3,-3), both returned normally. -/
theorem C5_counterexample :
    vadd [1,2,3] [4,5] = [5,7] ∧ vsub [1,2,3] [4,5] = [-3,-3] := by
  constructor
  · decide
  · decide

/-- C5 amended: elementwise addition and subtraction pair entries positionally
and truncate to the shorter operand instead of failing; on equal-length
operands they are the full elementwise sum and difference. -/
theorem C5_amended_truncating_add_sub (a b : List ℚ) :
    (vadd a b).length = min a.length b.length ∧
      (vsub a b).length = min a.length b.length ∧
      (∀ i, i < min a.length b.length →
        (vadd a b).getD i 0 = a.getD i 0 + b.getD i 0 ∧
          (vsub a b).getD i 0 = a.getD i 0 - b.getD i 0) := by
  refine ⟨List.length_zipWith _ _ _, List.length_zipWith _ _ _, ?_⟩
  intro i hi
  have ha : i < a.length := lt_of_lt_of_le hi (Nat.min_le_left _ _)
  have hb : i < b.length := lt_of_lt_of_le hi (Nat.min_le_right _ _)
  have hz1 : i < (vadd a b).length := by
    rw [vadd, List.length_zipWith]
    exact hi
  have hz2 : i < (vsub a b).length := by
    rw [vsub, List.length_zipWith]
    exact hi
  constructor
  · rw [List.getD_eq_getElem _ 0 hz1, List.getD_eq_getElem _ 0 ha,
      List.getD_eq_getElem _ 0 hb]
    exact List.getElem_zipWith
  · rw [List.getD_eq_getElem _ 0 hz2, List.getD_eq_getElem _ 0 ha,
      List.getD_eq_getElem _ 0 hb]
    exact List.getElem_zipWith

/-- C5 witness: the elementwise description instantiated at Vector(1,2) and
Vector(10,20), entry 1. -/
theorem C5_amended_witness :
    (vadd [1,2] [10,20]).getD 1 0 = ([1,2] : List ℚ).getD 1 0 + ([10,20] : List ℚ).getD 1 0 ∧
      (vsub [1,2] [10,20]).getD 1 0 = ([1,2] : List ℚ).getD 1 0 - ([10,20] : List ℚ).getD 1 0 :=
  (C5_amended_truncating_add_sub [1,2] [10,20]).2.2 1 (by decide)

/-- C7: the pow guard is `not (is_square or isinstance(idx, int))`, so for an
integer exponent a non-square base is never rejected: Matrix((1,2)) ** 0
returns identity(2) instead of failing.  Negative exponents do fail. -/
theorem C7_pow_nonsquare_behavior :
    Matrix.pow (ofRows [[1,2]]) 0 = .ok (identity 2) ∧
      Matrix.pow (ofRows [[1,2]]) (-1) = .error Err.unsupported := by
  constructor
  · decide
  · decide

/-- C1 counterexample: determinant(identity(0)) does not equal 1.  The empty
matrix normalises its storage to a single phantom empty row ( _m = ((),) while
height = width = 0 ), rows() yields that empty row, and the determinant loop
indexes row[0] into it, an IndexError. -/
theorem C1_counterexample :
    (identity 0).determinant = .error Err.indexOutOfRange ∧
      (identity 0).determinant ≠ .ok 1 := by
  constructor
  · decide
  · decide

/-- C1 amended: for every square matrix with at least one row, the determinant
is ok of the product of the diagonal entries of the row-echelon form, and
determinant(identity(n)) = 1 for every n of at least 1; at n = 0 the operation
raises IndexOutOfRange instead. -/
theorem C1_amended_determinant :
    (∀ A : Matrix, A.WF → A.w = A.h → 0 < A.h →
        A.determinant = .ok (diagProd (Matrix.row_echelon_form A).m)) ∧
      (∀ n : ℕ, 0 < n → (identity n).determinant = .ok 1) := by
  constructor
  · intro A hWF hsq hpos
    rw [Matrix.determinant, if_pos hsq, Matrix.row_echelon_form]
    obtain ⟨hlen, hrows, _, _⟩ := echelon_shape A hWF hpos
    rw [detLoop_ok _ 0 1 ?_, one_mul, diagProd]
    intro k hk
    rw [hrows _ (List.getElem_mem hk), Nat.zero_add, hsq, ← hlen]
    exact hk
  · intro n hn
    have hId := identity_m n hn
    have hsq : (identity n).w = (identity n).h := by
      rw [hId.2.1, hId.2.2]
    have hfix := echelon_fixed (identity n) (identity_WF n) (identity_isEchelon n)
    rw [Matrix.determinant, if_pos hsq, Matrix.row_echelon_form, hfix, hId.1]
    rw [detLoop_ok _ 0 1 ?_, one_mul]
    · rw [diagFrom_prod_one _ 0 ?_]
      intro k hk
      have hkn : k < n := by simpa using hk
      rw [List.getElem_map, List.getElem_range, Nat.zero_add, basisRow,
        getD_map_range _ 0 hkn]
      simp [kronecker_delta]
    · intro k hk
      have hkn : k < n := by simpa using hk
      rw [List.getElem_map, List.getElem_range, basisRow_length, Nat.zero_add]
      exact hkn

/-- C1 witness: a concrete square matrix and identity(3). -/
theorem C1_amended_witness :
    (ofRows [[2,0],[0,5]]).determinant =
        .ok (diagProd (Matrix.row_echelon_form (ofRows [[2,0],[0,5]])).m) ∧
      (identity 3).determinant = .ok 1 :=
  ⟨C1_amended_determinant.1 (ofRows [[2,0],[0,5]]) (by decide) (by decide) (by decide),
    C1_amended_determinant.2 3 (by decide)⟩

/-- C6 counterexample: matrix multiplication never checks A.width == B.height.
Multiplying a 2 by 2 matrix by a 3 by 1 matrix succeeds; each dot product
silently truncates to the two shared positions:
Matrix((1,2),(3,4)) * Matrix((1,),(2,),(3,)) = Matrix((5,),(11,)). -/
theorem C6_counterexample :
    (ofRows [[1,2],[3,4]]).w ≠ (ofRows [[1],[2],[3]]).h ∧
      matMul (ofRows [[1,2],[3,4]]) (ofRows [[1],[2],[3]]) = ofRows [[5],[11]] := by
  constructor
  · decide
  · decide

/-- C6 amended: no DimensionMismatch is ever raised; when A.width = B.height
the result has A.height rows and B.width columns and its (i, j) entry is the
dot product of row i of A with column j of B. -/
theorem C6_amended_mul_shape (A B : Matrix) (hA : A.WF) (hB : B.WF)
    (hcompat : A.w = B.h) :
    (matMul A B).h = A.h ∧ (matMul A B).w = B.w ∧
      ∀ i j, i < A.h → j < B.w →
        ((matMul A B).m.getD i []).getD j 0 =
          inner_product (A.m.getD i []) (B.col j) := by
  rcases WF_elim A hA with hAe | ⟨hAh, hAw, hAlen, hAne, hArows⟩
  · have hBh : 0 = B.h := by
      rw [← hcompat, hAe]
    have hBe := WF_h_zero B hB hBh.symm
    rw [hAe, hBe]
    refine ⟨by decide, by decide, ?_⟩
    intro i j hi _
    exact absurd hi (Nat.not_lt_zero i)
  · have hBh : 0 < B.h := by
      rw [← hcompat]
      exact hAw
    rcases WF_elim B hB with hBe | ⟨_, hBw, hBlen, hBne, hBrows⟩
    · rw [hBe] at hBh
      exact absurd hBh (by decide)
    · have hcols := zipCols_uniform B.m B.w hBne hBrows
      have hrowlen : ∀ r ∈ A.m.map
          (fun row => (zipCols B.m).map (fun col => inner_product row col)),
          r.length = B.w := by
        intro r hr
        rcases List.mem_map.mp hr with ⟨row, _, rfl⟩
        rw [List.length_map, hcols, List.length_map, List.length_range]
      have hmlen : 0 < (A.m.map
          (fun row => (zipCols B.m).map (fun col => inner_product row col))).length := by
        rw [List.length_map, hAlen]
        exact hAh
      have heq : matMul A B = ⟨A.m.map
          (fun row => (zipCols B.m).map (fun col => inner_product row col)),
          (A.m.map (fun row => (zipCols B.m).map (fun col => inner_product row col))).length,
          B.w⟩ := by
        rw [matMul, ofRows_of_pos _ B.w hmlen hBw hrowlen]
      refine ⟨?_, ?_, ?_⟩
      · rw [heq, List.length_map, hAlen]
      · rw [heq]
      · intro i j hi hj
        rw [heq]
        have hi2 : i < A.m.length := by
          rw [hAlen]
          exact hi
        have hj2 : j < (zipCols B.m).length := by
          rw [hcols, List.length_map, List.length_range]
          exact hj
        rw [getD_map_list _ _ [] [] hi2, getD_map_list _ _ [] 0 hj2]
        rfl

/-- C6 witness: compatible 2 by 2 matrices, with entry (1, 0) spelled out. -/
theorem C6_amended_witness :
    (matMul (ofRows [[1,2],[3,4]]) (ofRows [[5,6],[7,8]])).h = (ofRows [[1,2],[3,4]]).h ∧
      (matMul (ofRows [[1,2],[3,4]]) (ofRows [[5,6],[7,8]])).w = (ofRows [[5,6],[7,8]]).w ∧
      ((matMul (ofRows [[1,2],[3,4]]) (ofRows [[5,6],[7,8]])).m.getD 1 []).getD 0 0 =
        inner_product ((ofRows [[1,2],[3,4]]).m.getD 1 []) ((ofRows [[5,6],[7,8]]).col 0) := by
  have h := C6_amended_mul_shape (ofRows [[1,2],[3,4]]) (ofRows [[5,6],[7,8]])
    (by decide) (by decide) (by decide)
  exact ⟨h.1, h.2.1, h.2.2 1 0 (by decide) (by decide)⟩

/-- C8: for every square matrix, A to the power 0 is identity(A.width) and A to
the power 2 is A * A (the loop computes (identity * A) * A and identity is a
left unit). -/
theorem C8_pow_zero_and_two (A : Matrix) (hWF : A.WF) (hsq : A.w = A.h) :
    A.pow 0 = .ok (identity A.w) ∧ A.pow 2 = .ok (matMul A A) := by
  constructor
  · rw [Matrix.pow, if_neg (not_not_intro (Or.inr trivial)),
      if_pos (by norm_num : (0:ℤ) ≤ 0)]
    rfl
  · rw [Matrix.pow, if_neg (not_not_intro (Or.inr trivial)),
      if_pos (by norm_num : (0:ℤ) ≤ 2)]
    have hred : ((List.range (Int.toNat 2)).foldl (fun acc _ => matMul acc A)
        (identity A.w)) = matMul (matMul (identity A.w) A) A := rfl
    rw [hred, hsq, matMul_identity_left A hWF]

/-- C8 witness: the power laws at Matrix((1,2),(3,4)). -/
theorem C8_pow_witness :
    (ofRows [[1,2],[3,4]]).pow 0 = .ok (identity (ofRows [[1,2],[3,4]]).w) ∧
      (ofRows [[1,2],[3,4]]).pow 2 =
        .ok (matMul (ofRows [[1,2],[3,4]]) (ofRows [[1,2],[3,4]])) :=
  C8_pow_zero_and_two (ofRows [[1,2],[3,4]]) (by decide) (by decide)

lemma divEach_zero (m : ℝ) (x : ℚ) (xs : List ℚ) (hm : m = 0) :
    divEach m (x :: xs) = .error Err.divisionByZero := by
  rw [divEach, if_pos hm]

lemma divEach_ne (m : ℝ) (hm : m ≠ 0) :
    ∀ l : List ℚ, divEach m l = .ok (l.map (fun x : ℚ => (x : ℝ) / m)) := by
  intro l
  induction l with
  | nil => rfl
  | cons x xs ih =>
      rw [divEach, if_neg hm, ih, List.map_cons]

/-- C9 counterexample: the empty vector has magnitude 0 yet its direction does
not raise DivisionByZero.  The generator (x / m for x in self._v) produces no
element for an empty vector, so no division is executed and Vector() is
returned. -/
theorem C9_counterexample : magnitude [] = 0 ∧ direction [] = .ok [] := by
  constructor
  · simp [magnitude]
  · rfl

/-- C9 amended: for every non-empty vector of magnitude 0, direction fails with
DivisionByZero; for every vector of non-zero magnitude, direction returns the
vector scaled by 1/magnitude; for the empty vector, magnitude is 0 and
direction returns the empty vector without an error. -/
theorem C9_direction_division (v : List ℚ) :
    (v ≠ [] → magnitude v = 0 → direction v = .error Err.divisionByZero) ∧
      (magnitude v ≠ 0 → direction v = .ok (v.map (fun x : ℚ => (x : ℝ) / magnitude v))) := by
  constructor
  · intro hne hm
    cases v with
    | nil => exact absurd rfl hne
    | cons x xs =>
        rw [direction, divEach_zero _ x xs hm]
  · intro hm
    rw [direction, divEach_ne _ hm]

/-- C9 witness: the zero vector of length 3 fails with DivisionByZero, and
Vector(3,4) is scaled by the reciprocal of its magnitude. -/
theorem C9_direction_witness :
    direction [0,0,0] = .error Err.divisionByZero ∧
      direction [3,4] = .ok (([3,4] : List ℚ).map (fun x : ℚ => (x : ℝ) / magnitude [3,4])) := by
  have h1 := (C9_direction_division [0,0,0]).1 (by decide) (by norm_num [magnitude])
  have h2 := (C9_direction_division [3,4]).2 (by
    unfold magnitude
    rw [Real.sqrt_ne_zero']
    norm_num)
  exact ⟨h1, h2⟩

/-- C10 counterexample: for the empty 0 by 0 matrix and the empty vector (whose
length 0 equals the width), the product is the one-element Vector(0), not a
vector of length height = 0: the normalised storage _m = ((),) makes rows()
yield one phantom empty row. -/
theorem C10_counterexample :
    ([] : List ℚ).length = (ofRows []).w ∧
      Matrix.mul (ofRows []) (MulArg.vec []) = MulResult.vec [0] ∧
      (vecMul (ofRows []) []).length ≠ (ofRows ([] : List (List ℚ))).h := by
  refine ⟨by decide, by decide, by decide⟩

/-- C10 amended: for every matrix with at least one row and every vector whose
length is the width, the product is a Vector (not a Matrix) of length height
whose i-th entry is the dot product of row i with the vector; scalar and matrix
operands always produce a Matrix. -/
theorem C10_vecmul_shape (A : Matrix) (v : List ℚ) (hWF : A.WF) (hpos : 0 < A.h)
    (_hlen : v.length = A.w) :
    A.mul (.vec v) = .vec (vecMul A v) ∧
      (vecMul A v).length = A.h ∧
      (∀ i, i < A.h → (vecMul A v).getD i 0 = inner_product (A.m.getD i []) v) ∧
      (∀ c, ∃ M, A.mul (.scalar c) = .mat M) ∧
      (∀ B, ∃ M, A.mul (.mat B) = .mat M) := by
  rcases WF_elim A hWF with hAe | ⟨_, _, hAlen, _, _⟩
  · rw [hAe] at hpos
    exact absurd hpos (by decide)
  · refine ⟨rfl, ?_, ?_, fun c => ⟨_, rfl⟩, fun B => ⟨_, rfl⟩⟩
    · rw [vecMul, List.length_map, hAlen]
    · intro i hi
      have hi2 : i < A.m.length := by
        rw [hAlen]
        exact hi
      rw [vecMul, getD_map_list _ _ [] 0 hi2]

/-- C10 witness: Matrix((1,2),(3,4)) * Vector(5,6) is the Vector of row dot
products, with entry 0 spelled out. -/
theorem C10_vecmul_witness :
    Matrix.mul (ofRows [[1,2],[3,4]]) (MulArg.vec [5,6]) =
        MulResult.vec (vecMul (ofRows [[1,2],[3,4]]) [5,6]) ∧
      (vecMul (ofRows [[1,2],[3,4]]) [5,6]).getD 0 0 =
        inner_product ((ofRows [[1,2],[3,4]]).m.getD 0 []) [5,6] := by
  have h := C10_vecmul_shape (ofRows [[1,2],[3,4]]) [5,6] (by decide) (by decide) (by decide)
  exact ⟨h.1, h.2.2.1 0 (by decide)⟩

end Linalg
